import Mathlib

/-!
SimpleVector: a shallow embedding of `simple_vector.h` (class template
`SimpleVector<Type>`).

* A raw array pointer `Type*` is a value of `Ptr T`: `none` is `nullptr`, and
  `some b` points at the first slot of an allocation that holds `b.length` slots.
* An iterator is the pointer `items_ + i`; it is represented by its offset `i`.
* `size_t` arithmetic is arithmetic modulo `SIZE_MOD = 2 ^ 64`.
* A method that mutates the object takes the old object and returns the new one.
  Every access outside the allocation (undefined behaviour in C++), every failed
  `assert` and every thrown exception is an explicit `Fault`.
-/

namespace SV

/-- The three ways an operation of the class can fail to produce a value. -/
inductive Fault where
  /-- The exception `std::out_of_range` thrown by `At`. -/
  | out_of_range
  /-- The operand of an `assert` was false. -/
  | assertion
  /-- Undefined behaviour: a read or write outside the allocation, or an invalid range. -/
  | undefined
  deriving DecidableEq, Repr

/-- Outcome of an operation: a value, or a fault. -/
inductive Res (α : Type) where
  | ok (a : α)
  | fail (f : Fault)
  deriving DecidableEq, Repr

/-- Sequencing of outcomes: the first fault ends the computation. -/
def Res.bind {α β : Type} (r : Res α) (k : α → Res β) : Res β :=
  match r with
  | .ok a => k a
  | .fail f => .fail f

instance : Monad Res where
  pure := Res.ok
  bind := Res.bind

/-- Number of values of `size_t` (64-bit target). -/
def SIZE_MOD : Nat := 18446744073709551616

/-- Difference `a - b` of two `size_t` values. -/
def size_t_sub (a b : Nat) : Nat := (a % SIZE_MOD + SIZE_MOD - b % SIZE_MOD) % SIZE_MOD

/-- A pointer to the first slot of an array: `none` is `nullptr`, `some b` is an
allocation of `b.length` slots with contents `b`. -/
abbrev Ptr (T : Type) := Option (List T)

/-- The slots reachable through a pointer (none through `nullptr`). -/
def Ptr.slots {T : Type} (p : Ptr T) : List T := p.getD []

/-- Read `p[i]`. -/
def load {T : Type} (p : Ptr T) (i : Nat) : Res T :=
  match p.slots[i]? with
  | some x => .ok x
  | none => .fail .undefined

/-- Write `p[i] = x`. -/
def store {T : Type} (p : Ptr T) (i : Nat) (x : T) : Res (Ptr T) :=
  match p with
  | some b => if i < b.length then .ok (some (b.set i x)) else .fail .undefined
  | none => .fail .undefined

/-- The expression `new Type[n]`: a fresh allocation of `n` slots. For a class type
each slot is default-constructed, for a scalar type its value is indeterminate;
`junk` stands for whatever a fresh slot holds. -/
def new_array {T : Type} (junk : T) (n : Nat) : Ptr T := some (List.replicate n junk)

/-- Modelled from the spec: `ArrayPtr<Type> tmp(n)` of the header `array_ptr.h`, which is
not part of the sources; the owning buffer "exclusively owns a contiguous allocation sized
to that count"; `Get()` and `Release()` hand out the pointer to its first slot. -/
def ArrayPtr {T : Type} (junk : T) (n : Nat) : Ptr T := new_array junk n

/-- The call `std::copy(src + first, src + first + n, dst + d_first)` for two different
arrays: `*d_first++ = *first++`, `n` times. Returns the destination array. -/
def std_copy {T : Type} (src : Ptr T) (first : Nat) (n : Nat) (dst : Ptr T) (d_first : Nat) :
    Res (Ptr T) :=
  match n with
  | 0 => .ok dst
  | k + 1 => do
    let x ← load src first
    let dst1 ← store dst d_first x
    std_copy src (first + 1) k dst1 (d_first + 1)

/-- The call `std::copy(p + first, p + first + n, p + d_first)` inside one array:
`*d_first++ = *first++`, `n` times, each read seeing the writes made before it. -/
def std_copy_within {T : Type} (p : Ptr T) (first : Nat) (n : Nat) (d_first : Nat) :
    Res (Ptr T) :=
  match n with
  | 0 => .ok p
  | k + 1 => do
    let x ← load p first
    let p1 ← store p d_first x
    std_copy_within p1 (first + 1) k (d_first + 1)

/-- The call `std::copy_backward(p + first, p + first + n, p + d_last)` inside one array:
`*(--d_last) = *(--last)`, `n` times, starting with `last = first + n`. The loop is the
one every implementation runs (the standard leaves the call undefined when `d_last` lies
in `(first, last]`). A decrement of `d_last` below the start of the array is a fault. -/
def std_copy_backward {T : Type} (p : Ptr T) (first : Nat) (n : Nat) (d_last : Nat) :
    Res (Ptr T) :=
  match n with
  | 0 => .ok p
  | k + 1 =>
    if d_last = 0 then .fail .undefined
    else do
      let x ← load p (first + k)
      let p1 ← store p (d_last - 1) x
      std_copy_backward p1 first k (d_last - 1)

/-- The call `std::fill(p + first, p + first + n, x)`: `*first++ = x`, `n` times. -/
def std_fill {T : Type} (p : Ptr T) (first : Nat) (n : Nat) (x : T) : Res (Ptr T) :=
  match n with
  | 0 => .ok p
  | k + 1 => do
    let p1 ← store p first x
    std_fill p1 (first + 1) k x

/-- The data members of `SimpleVector<Type>`. -/
structure SimpleVector (T : Type) where
  /-- Member `Type* items_`. -/
  items_ : Ptr T
  /-- Member `size_t size_`. -/
  size_ : Nat
  /-- Member `size_t capacity_`. -/
  capacity_ : Nat
  deriving DecidableEq, Repr

namespace SimpleVector

variable {T : Type}

/-- Constructor `SimpleVector() noexcept = default`: the default member initialisers. -/
def ctor_default : SimpleVector T := { items_ := none, size_ := 0, capacity_ := 0 }

/-- Method `GetSize()`. -/
def GetSize (v : SimpleVector T) : Nat := v.size_

/-- Method `GetCapacity()`. -/
def GetCapacity (v : SimpleVector T) : Nat := v.capacity_

/-- Method `IsEmpty()`. -/
def IsEmpty (v : SimpleVector T) : Bool := v.size_ == 0

/-- The valid elements: the contents of the range `[begin(), end())`. -/
def elems (v : SimpleVector T) : List T := v.items_.slots.take v.size_

/-- Method `swap(other)`: returns the new `*this` and the new `other`. -/
def swap (v other : SimpleVector T) : SimpleVector T × SimpleVector T :=
  ({ items_ := other.items_, size_ := other.size_, capacity_ := other.capacity_ },
   { items_ := v.items_, size_ := v.size_, capacity_ := v.capacity_ })

/-- Constructor `explicit SimpleVector(size_t size, const Type& value)`; the call
`SimpleVector();` in its first branch builds and drops a temporary. -/
def ctor_size_value (junk : T) (size : Nat) (value : T) : Res (SimpleVector T) :=
  if size = 0 then
    .ok { items_ := none, size_ := size, capacity_ := size }
  else do
    let items ← std_fill (new_array junk size) 0 size value
    .ok { items_ := items, size_ := size, capacity_ := size }

/-- Constructor `SimpleVector(std::initializer_list<Type> init)`. -/
def ctor_init_list (junk : T) (init : List T) : Res (SimpleVector T) :=
  if init.length = 0 then
    .ok ctor_default
  else do
    let list_size := init.length
    let items ← std_copy (some init) 0 init.length (new_array junk list_size) 0
    .ok { items_ := items, size_ := list_size, capacity_ := list_size }

/-- Constructor `SimpleVector(const SimpleVector& other)`; `*this` starts from the default
member initialisers and takes the members of `tmp` in the final `swap`. -/
def ctor_copy [Inhabited T] (junk : T) (other : SimpleVector T) : Res (SimpleVector T) := do
  let tmp ← ctor_size_value junk other.GetSize default
  let tmp := { tmp with capacity_ := other.capacity_ }
  let items ← std_copy other.items_ 0 other.size_ tmp.items_ 0
  let tmp := { tmp with items_ := items }
  .ok (swap ctor_default tmp).1

/-- Constructor `SimpleVector(SimpleVector&& other)`: returns the new object and the
moved-from `other`. -/
def ctor_move (other : SimpleVector T) : SimpleVector T × SimpleVector T :=
  swap ctor_default other

/-- Method `Clear()`. -/
def Clear (v : SimpleVector T) : SimpleVector T := { v with size_ := 0 }

/-- Method `At(index)`: the outcome of the call together with the object after it. -/
def At (v : SimpleVector T) (index : Nat) : Res T × SimpleVector T :=
  if index ≥ v.size_ then (.fail .out_of_range, v)
  else (load v.items_ index, v)

/-- Method `Resize(new_size)`. -/
def Resize [Inhabited T] (junk : T) (v : SimpleVector T) (new_size : Nat) :
    Res (SimpleVector T) :=
  if new_size > v.capacity_ then do
    let new_capacity := max new_size (v.capacity_ * 2 % SIZE_MOD)
    let tmp := ArrayPtr junk new_capacity
    let tmp ← std_copy v.items_ 0 v.size_ tmp 0
    let tmp ← std_fill tmp v.size_ (size_t_sub new_size v.size_) default
    .ok { items_ := tmp, size_ := new_size, capacity_ := new_capacity }
  else if new_size > v.size_ then do
    let items ← std_fill v.items_ v.size_ (new_size - v.size_) default
    .ok { items_ := items, size_ := new_size, capacity_ := v.capacity_ }
  else if new_size < v.size_ then
    .ok { items_ := v.items_, size_ := new_size, capacity_ := v.capacity_ }
  else
    .ok v

/-- Method `PopBack()`. -/
def PopBack (v : SimpleVector T) : Res (SimpleVector T) :=
  if v.size_ = 0 then .fail .assertion
  else .ok { v with size_ := v.size_ - 1 }

/-- Method `Erase(pos)` with `pos = begin() + index`: the new object and the offset of the
returned iterator. The range `[pos + 1, end())` exists only when `index < size_`. -/
def Erase (v : SimpleVector T) (index : Nat) : Res (SimpleVector T × Nat) :=
  if index < v.size_ then do
    let items ← std_copy_within v.items_ (index + 1) (v.size_ - (index + 1)) index
    .ok ({ items_ := items, size_ := v.size_ - 1, capacity_ := v.capacity_ }, index)
  else .fail .undefined

/-- Method `Insert(pos, value)` with `pos = begin() + index` (both overloads run the same
statements): the new object and the offset of the returned iterator `&items_[index]`. -/
def Insert (junk : T) (v : SimpleVector T) (index : Nat) (value : T) :
    Res (SimpleVector T × Nat) :=
  if index ≤ v.size_ then
    if v.size_ < v.capacity_ then do
      let items ← std_copy_backward v.items_ index (v.size_ - index) v.size_
      let items ← store items index value
      .ok ({ items_ := items, size_ := (v.size_ + 1) % SIZE_MOD, capacity_ := v.capacity_ },
           index)
    else do
      let new_capacity := v.capacity_ * 2 % SIZE_MOD
      let tmp := ArrayPtr junk new_capacity
      let tmp ← std_copy v.items_ 0 index tmp 0
      let tmp ← store tmp index value
      let tmp ← std_copy v.items_ index (v.size_ - index) tmp (index + 1)
      .ok ({ items_ := tmp, size_ := (v.size_ + 1) % SIZE_MOD, capacity_ := new_capacity },
           index)
  else .fail .assertion

/-- Method `PushBack(value)`: `Insert(end(), value)`, the returned iterator dropped. -/
def PushBack (junk : T) (v : SimpleVector T) (value : T) : Res (SimpleVector T) := do
  let r ← Insert junk v v.size_ value
  .ok r.1

/-- Method `Reserve(new_capacity)`. -/
def Reserve (junk : T) (v : SimpleVector T) (new_capacity : Nat) : Res (SimpleVector T) :=
  if new_capacity > v.capacity_ then do
    let temp_ptr := new_array junk new_capacity
    let temp_ptr ← if v.size_ ≠ 0 then std_copy v.items_ 0 v.size_ temp_ptr 0 else .ok temp_ptr
    .ok { items_ := temp_ptr, size_ := v.size_, capacity_ := new_capacity }
  else .ok v

/-- Constructor `SimpleVector(ReserveProxyObj capacity_to_reserve)`: `Reserve` on the
default members; `capacity_to_reserve` is the value of `GetCapacity()` of the proxy object. -/
def ctor_reserve (junk : T) (capacity_to_reserve : Nat) : Res (SimpleVector T) :=
  Reserve junk ctor_default capacity_to_reserve

/-- Operator `operator=(const SimpleVector& rhs)` for `this != &rhs`. -/
def assign [Inhabited T] (junk : T) (v rhs : SimpleVector T) : Res (SimpleVector T) := do
  let tmp ← ctor_copy junk rhs
  .ok (swap v tmp).1

end SimpleVector

section Operators

variable {T : Type}

/-- The call `std::lexicographical_compare(p + first1, p + first1 + n1, q + first2,
q + first2 + n2)`: while both ranges have elements, `if (*first1 < *first2) return true;
if (*first2 < *first1) return false;`; at the end
`return first1 == last1 && first2 != last2`. -/
def std_lexicographical_compare [LT T] [∀ x y : T, Decidable (x < y)]
    (p : Ptr T) (first1 n1 : Nat) (q : Ptr T) (first2 n2 : Nat) : Res Bool :=
  match n1, n2 with
  | 0, 0 => .ok false
  | 0, _ + 1 => .ok true
  | _ + 1, 0 => .ok false
  | k1 + 1, k2 + 1 => do
    let x ← load p first1
    let y ← load q first2
    if x < y then .ok true
    else if y < x then .ok false
    else std_lexicographical_compare p (first1 + 1) k1 q (first2 + 1) k2

/-- Operator `operator<(SimpleVector<Type> left, SimpleVector<Type> right)`, called with two
lvalue arguments `a` and `b`: both parameters are copy-constructed. -/
def operator_lt [Inhabited T] [LT T] [∀ x y : T, Decidable (x < y)] (junk : T)
    (a b : SimpleVector T) : Res Bool := do
  let left ← SimpleVector.ctor_copy junk a
  let right ← SimpleVector.ctor_copy junk b
  std_lexicographical_compare left.items_ 0 left.size_ right.items_ 0 right.size_

/-- Operator `operator>(SimpleVector<Type> left, SimpleVector<Type> right)`, called with two
lvalue arguments `a` and `b`: `return right < left;` on the copy-constructed parameters. -/
def operator_gt [Inhabited T] [LT T] [∀ x y : T, Decidable (x < y)] (junk : T)
    (a b : SimpleVector T) : Res Bool := do
  let left ← SimpleVector.ctor_copy junk a
  let right ← SimpleVector.ctor_copy junk b
  operator_lt junk right left

/- The free function template `operator==` reads `left.items_` and `right.items_`, a private
member of the class, and the class declares no friend: the template cannot be instantiated
and has no embedding.

The bodies of `operator!=`, `operator>=` and `operator<=` are `(!left == right)`,
`(!left < right)` and `(!right < left)`: unary `!` binds to the `SimpleVector` operand, for
which the class declares neither `operator!` nor a conversion to `bool`. These three
templates cannot be instantiated and have no embedding. -/

/-- Lexicographic comparison of two sequences with the element order `<`: the first
position at which one element is smaller than the other decides, and a sequence that ends
first is smaller than a longer one that continues it. -/
def lexicographical_less [LT T] [∀ x y : T, Decidable (x < y)] : List T → List T → Bool
  | [], [] => false
  | [], _ :: _ => true
  | _ :: _, [] => false
  | x :: xs, y :: ys =>
    if x < y then true else if y < x then false else lexicographical_less xs ys

end Operators

section Lemmas

variable {T : Type}

@[simp] theorem Res.ok_bind {α β : Type} (a : α) (k : α → Res β) : (Res.ok a >>= k) = k a := rfl

@[simp] theorem Res.fail_bind {α β : Type} (f : Fault) (k : α → Res β) :
    (Res.fail f >>= k) = Res.fail f := rfl

@[simp] theorem Res.pure_eq {α : Type} (a : α) : (pure a : Res α) = Res.ok a := rfl

@[simp] theorem Ptr.slots_some (b : List T) : Ptr.slots (some b) = b := rfl

@[simp] theorem Ptr.slots_none : Ptr.slots (none : Ptr T) = [] := rfl

/-- A read below the number of slots returns the slot. -/
theorem load_ok (p : Ptr T) (i : Nat) (h : i < p.slots.length) :
    ∃ x, load p i = .ok x ∧ p.slots[i]? = some x := by
  refine ⟨p.slots[i], ?_, by simp [h]⟩
  simp [load, h]

/-- A write below the number of slots succeeds and changes that slot only. -/
theorem store_ok (p : Ptr T) (i : Nat) (x : T) (h : i < p.slots.length) :
    ∃ r, store p i x = .ok r ∧ r.isSome = true ∧ r.slots = p.slots.set i x := by
  cases p with
  | none => simp at h
  | some b =>
    simp at h
    exact ⟨some (b.set i x), by simp [store, h], rfl, rfl⟩

/-- Copying `n` elements between two arrays, both ranges inside their allocations:
the destination keeps its length and receives the source range at `d_first`. -/
theorem std_copy_ok (src : Ptr T) (n : Nat) : ∀ (first : Nat) (dst : Ptr T) (d_first : Nat),
    first + n ≤ src.slots.length → d_first + n ≤ dst.slots.length →
    ∃ r, std_copy src first n dst d_first = .ok r ∧ r.isSome = dst.isSome ∧
      r.slots.length = dst.slots.length ∧
      ∀ j, r.slots[j]? =
        if d_first ≤ j ∧ j < d_first + n then src.slots[j - d_first + first]? else dst.slots[j]? := by
  induction n with
  | zero =>
    intro first dst d_first _ _
    refine ⟨dst, by simp [std_copy], rfl, rfl, ?_⟩
    intro j
    have : ¬ (d_first ≤ j ∧ j < d_first + 0) := by omega
    rw [if_neg this]
  | succ k ih =>
    intro first dst d_first hs hd
    obtain ⟨x, hx, hxe⟩ := load_ok src first (by omega)
    obtain ⟨d1, hd1, hsome, hslots⟩ := store_ok dst d_first x (by omega)
    obtain ⟨r, hr, hrs, hrl, hrj⟩ := ih (first + 1) d1 (d_first + 1) (by omega)
      (by rw [hslots]; simp; omega)
    refine ⟨r, ?_, ?_, ?_, ?_⟩
    · simp [std_copy, hx, hd1, hr]
    · rw [hrs, hsome]
      cases dst with
      | none => simp at hd
      | some b => rfl
    · rw [hrl, hslots]; simp
    · intro j
      rw [hrj j, hslots]
      by_cases h1 : j = d_first
      · subst h1
        have h2 : ¬ (j + 1 ≤ j ∧ j < j + 1 + k) := by omega
        have h3 : j ≤ j ∧ j < j + (k + 1) := by omega
        have h4 : j < dst.slots.length := by omega
        have h5 : j - j + first = first := by omega
        rw [if_neg h2, if_pos h3, List.getElem?_set_self h4, h5, hxe]
      · by_cases h2 : d_first + 1 ≤ j ∧ j < d_first + 1 + k
        · have h3 : d_first ≤ j ∧ j < d_first + (k + 1) := by omega
          have h4 : j - (d_first + 1) + (first + 1) = j - d_first + first := by omega
          rw [if_pos h2, if_pos h3, h4]
        · have h3 : ¬ (d_first ≤ j ∧ j < d_first + (k + 1)) := by omega
          have h5 : d_first ≠ j := fun h => h1 h.symm
          rw [if_neg h2, if_neg h3, List.getElem?_set_ne h5]

/-- Forward copy inside one array towards lower offsets (`d_first ≤ first`): every
destination slot receives the original value of its source slot. -/
theorem std_copy_within_ok (n : Nat) : ∀ (p : Ptr T) (first d_first : Nat),
    d_first ≤ first → first + n ≤ p.slots.length →
    ∃ r, std_copy_within p first n d_first = .ok r ∧ r.isSome = p.isSome ∧
      r.slots.length = p.slots.length ∧
      ∀ j, r.slots[j]? =
        if d_first ≤ j ∧ j < d_first + n then p.slots[j - d_first + first]? else p.slots[j]? := by
  induction n with
  | zero =>
    intro p first d_first _ _
    refine ⟨p, by simp [std_copy_within], rfl, rfl, ?_⟩
    intro j
    have : ¬ (d_first ≤ j ∧ j < d_first + 0) := by omega
    rw [if_neg this]
  | succ k ih =>
    intro p first d_first hle hs
    obtain ⟨x, hx, hxe⟩ := load_ok p first (by omega)
    obtain ⟨p1, hp1, hsome, hslots⟩ := store_ok p d_first x (by omega)
    obtain ⟨r, hr, hrs, hrl, hrj⟩ := ih p1 (first + 1) (d_first + 1) (by omega)
      (by rw [hslots]; simp; omega)
    refine ⟨r, ?_, ?_, ?_, ?_⟩
    · simp [std_copy_within, hx, hp1, hr]
    · rw [hrs, hsome]
      cases p with
      | none => simp at hs
      | some b => rfl
    · rw [hrl, hslots]; simp
    · intro j
      rw [hrj j, hslots]
      by_cases h1 : j = d_first
      · subst h1
        have h2 : ¬ (j + 1 ≤ j ∧ j < j + 1 + k) := by omega
        have h3 : j ≤ j ∧ j < j + (k + 1) := by omega
        have h4 : j < p.slots.length := by omega
        have h5 : j - j + first = first := by omega
        rw [if_neg h2, if_pos h3, List.getElem?_set_self h4, h5, hxe]
      · by_cases h2 : d_first + 1 ≤ j ∧ j < d_first + 1 + k
        · have h3 : d_first ≤ j ∧ j < d_first + (k + 1) := by omega
          have h4 : j - (d_first + 1) + (first + 1) = j - d_first + first := by omega
          have h5 : d_first ≠ j - d_first + first := by omega
          rw [if_pos h2, if_pos h3, h4, List.getElem?_set_ne h5]
        · have h3 : ¬ (d_first ≤ j ∧ j < d_first + (k + 1)) := by omega
          have h5 : d_first ≠ j := fun h => h1 h.symm
          rw [if_neg h2, if_neg h3, List.getElem?_set_ne h5]

/-- Filling `n` slots inside the allocation writes `x` to exactly those slots. -/
theorem std_fill_ok (x : T) (n : Nat) : ∀ (p : Ptr T) (first : Nat),
    first + n ≤ p.slots.length →
    ∃ r, std_fill p first n x = .ok r ∧ r.isSome = p.isSome ∧
      r.slots.length = p.slots.length ∧
      ∀ j, r.slots[j]? = if first ≤ j ∧ j < first + n then some x else p.slots[j]? := by
  induction n with
  | zero =>
    intro p first _
    refine ⟨p, by simp [std_fill], rfl, rfl, ?_⟩
    intro j
    have : ¬ (first ≤ j ∧ j < first + 0) := by omega
    rw [if_neg this]
  | succ k ih =>
    intro p first hs
    obtain ⟨p1, hp1, hsome, hslots⟩ := store_ok p first x (by omega)
    obtain ⟨r, hr, hrs, hrl, hrj⟩ := ih p1 (first + 1) (by rw [hslots]; simp; omega)
    refine ⟨r, ?_, ?_, ?_, ?_⟩
    · simp [std_fill, hp1, hr]
    · rw [hrs, hsome]
      cases p with
      | none => simp at hs
      | some b => rfl
    · rw [hrl, hslots]; simp
    · intro j
      rw [hrj j, hslots]
      by_cases h1 : j = first
      · subst h1
        have h2 : ¬ (j + 1 ≤ j ∧ j < j + 1 + k) := by omega
        have h3 : j ≤ j ∧ j < j + (k + 1) := by omega
        have h4 : j < p.slots.length := by omega
        rw [if_neg h2, if_pos h3, List.getElem?_set_self h4]
      · by_cases h2 : first + 1 ≤ j ∧ j < first + 1 + k
        · have h3 : first ≤ j ∧ j < first + (k + 1) := by omega
          rw [if_pos h2, if_pos h3]
        · have h3 : ¬ (first ≤ j ∧ j < first + (k + 1)) := by omega
          have h5 : first ≠ j := fun h => h1 h.symm
          rw [if_neg h2, if_neg h3, List.getElem?_set_ne h5]

/-- Backward copy of a range onto itself (`d_last = last`) leaves the array as it was. -/
theorem std_copy_backward_self (n : Nat) : ∀ (p : Ptr T) (first : Nat),
    first + n ≤ p.slots.length → std_copy_backward p first n (first + n) = .ok p := by
  induction n with
  | zero => intro p first _; simp [std_copy_backward]
  | succ k ih =>
    intro p first hs
    cases p with
    | none => simp at hs
    | some b =>
      simp at hs
      have h1 : first + k < b.length := by omega
      have h2 : first + (k + 1) ≠ 0 := by omega
      have h3 : first + (k + 1) - 1 = first + k := by omega
      have h4 : b.set (first + k) b[first + k] = b := by
        apply List.ext_getElem?
        intro j
        by_cases hj : first + k = j
        · subst hj
          rw [List.getElem?_set_self h1, List.getElem?_eq_getElem h1]
        · rw [List.getElem?_set_ne hj]
      have := ih (some b) first (by simp; omega)
      simp [std_copy_backward, h2, h3, load, store, h1, h4, this]

/-- No wrap-around in `a - b` when `b ≤ a` and `a` is a `size_t` value. -/
theorem size_t_sub_eq (a b : Nat) (hb : b ≤ a) (ha : a < SIZE_MOD) : size_t_sub a b = a - b := by
  simp only [size_t_sub, SIZE_MOD] at *
  omega

/-- The buffer owned by `ArrayPtr tmp(n)` has `n` slots. -/
theorem ArrayPtr_slots (junk : T) (n : Nat) : (ArrayPtr junk n).slots = List.replicate n junk := rfl

/-- What `Resize(n)` does to a vector that owns `capacity_` slots and has `size_ ≤ capacity_`:
it returns, the new size is `n`, the capacity follows the two branches of the source, the
new buffer again holds `capacity_` slots, and every slot below `n` holds the old element
(below the old size) or `Type{}` (from the old size on). -/
theorem Resize_run [Inhabited T] (junk : T) (v : SimpleVector T) (n : Nat)
    (hsz : v.size_ ≤ v.capacity_) (hbuf : v.items_.slots.length = v.capacity_)
    (hn : n < SIZE_MOD) :
    ∃ w, SimpleVector.Resize junk v n = .ok w ∧ w.size_ = n ∧
      w.capacity_ = (if n > v.capacity_ then max n (v.capacity_ * 2 % SIZE_MOD)
        else v.capacity_) ∧
      w.items_.slots.length = w.capacity_ ∧
      ∀ j, j < n → w.items_.slots[j]? = if j < v.size_ then v.items_.slots[j]? else some default := by
  by_cases h1 : n > v.capacity_
  · obtain ⟨r1, hr1, _, hl1, hj1⟩ := std_copy_ok v.items_ v.size_ 0
      (ArrayPtr junk (max n (v.capacity_ * 2 % SIZE_MOD))) 0 (by omega)
      (by rw [ArrayPtr_slots, List.length_replicate]; omega)
    rw [ArrayPtr_slots, List.length_replicate] at hl1
    have hsub : size_t_sub n v.size_ = n - v.size_ := size_t_sub_eq n v.size_ (by omega) hn
    obtain ⟨r2, hr2, _, hl2, hj2⟩ := std_fill_ok (default : T) (n - v.size_) r1 v.size_
      (by rw [hl1]; omega)
    refine ⟨{ items_ := r2, size_ := n,
              capacity_ := max n (v.capacity_ * 2 % SIZE_MOD) }, ?_, rfl, ?_, ?_, ?_⟩
    · simp only [SimpleVector.Resize, if_pos h1, hsub, hr1, hr2, Res.ok_bind]
    · simp only [if_pos h1]
    · show r2.slots.length = _
      rw [hl2, hl1]
    · intro j hj
      show r2.slots[j]? = _
      rw [hj2 j, hj1 j]
      by_cases h2 : j < v.size_
      · have h3 : ¬ (v.size_ ≤ j ∧ j < v.size_ + (n - v.size_)) := by omega
        have h4 : 0 ≤ j ∧ j < 0 + v.size_ := by omega
        have h5 : j - 0 + 0 = j := by omega
        rw [if_neg h3, if_pos h4, if_pos h2, h5]
      · have h3 : v.size_ ≤ j ∧ j < v.size_ + (n - v.size_) := by omega
        rw [if_pos h3, if_neg h2]
  · by_cases h2 : n > v.size_
    · obtain ⟨r, hr, _, hl, hj⟩ := std_fill_ok (default : T) (n - v.size_) v.items_ v.size_
        (by omega)
      refine ⟨{ items_ := r, size_ := n, capacity_ := v.capacity_ }, ?_, rfl, ?_, ?_, ?_⟩
      · simp only [SimpleVector.Resize, if_neg h1, if_pos h2, hr, Res.ok_bind]
      · simp only [if_neg h1]
      · show r.slots.length = _
        rw [hl, hbuf]
      · intro j hjn
        show r.slots[j]? = _
        rw [hj j]
        by_cases h3 : j < v.size_
        · have h4 : ¬ (v.size_ ≤ j ∧ j < v.size_ + (n - v.size_)) := by omega
          rw [if_neg h4, if_pos h3]
        · have h4 : v.size_ ≤ j ∧ j < v.size_ + (n - v.size_) := by omega
          rw [if_pos h4, if_neg h3]
    · by_cases h3 : n < v.size_
      · refine ⟨{ items_ := v.items_, size_ := n, capacity_ := v.capacity_ }, ?_, rfl, ?_, hbuf, ?_⟩
        · simp only [SimpleVector.Resize, if_neg h1, if_neg h2, if_pos h3]
        · simp only [if_neg h1]
        · intro j hjn
          have h4 : j < v.size_ := by omega
          show v.items_.slots[j]? = _
          rw [if_pos h4]
      · refine ⟨v, ?_, by omega, ?_, hbuf, ?_⟩
        · simp only [SimpleVector.Resize, if_neg h1, if_neg h2, if_neg h3]
        · simp only [if_neg h1]
        · intro j hjn
          have h4 : j < v.size_ := by omega
          rw [if_pos h4]

/-- The room-available branch of `Insert` as the source runs it: `std::copy_backward` with
`d_last = end()` copies `[pos, end())` onto itself, then `*pos = value` replaces the element
at `index`; the slot at the old `size_` becomes the last valid element as it is. -/
theorem Insert_room_run (junk : T) (v : SimpleVector T) (index : Nat) (value : T)
    (hroom : v.size_ < v.capacity_) (hbuf : v.items_.slots.length = v.capacity_)
    (hidx : index ≤ v.size_) (hcap : v.capacity_ < SIZE_MOD) :
    ∃ r, SimpleVector.Insert junk v index value =
        .ok ({ items_ := r, size_ := v.size_ + 1, capacity_ := v.capacity_ }, index) ∧
      r.slots = v.items_.slots.set index value := by
  have h1 : index + (v.size_ - index) = v.size_ := by omega
  have hcb := std_copy_backward_self (v.size_ - index) v.items_ index (by omega)
  rw [h1] at hcb
  obtain ⟨r, hr, _, hrs⟩ := store_ok v.items_ index value (by omega)
  have hmod : (v.size_ + 1) % SIZE_MOD = v.size_ + 1 := Nat.mod_eq_of_lt (by omega)
  refine ⟨r, ?_, hrs⟩
  simp only [SimpleVector.Insert, if_pos hidx, if_pos hroom, hcb, hr, hmod, Res.ok_bind]

/-- The reallocating branch of `Insert` on a full vector of capacity at least one: the
capacity doubles, the size grows by one, the new buffer holds the new capacity, and the
valid elements are the old ones with `value` put in at `index`. -/
theorem Insert_grow_run (junk : T) (v : SimpleVector T) (index : Nat) (value : T)
    (hfull : v.size_ = v.capacity_) (hbuf : v.size_ ≤ v.items_.slots.length)
    (hpos : 0 < v.capacity_) (hdbl : v.capacity_ * 2 < SIZE_MOD) (hidx : index ≤ v.size_) :
    ∃ w, SimpleVector.Insert junk v index value = .ok (w, index) ∧
      w.size_ = v.size_ + 1 ∧ w.capacity_ = v.capacity_ * 2 ∧
      w.items_.slots.length = v.capacity_ * 2 ∧
      w.elems = v.elems.take index ++ value :: v.elems.drop index := by
  have hnot : ¬ (v.size_ < v.capacity_) := by omega
  have hmodc : v.capacity_ * 2 % SIZE_MOD = v.capacity_ * 2 := Nat.mod_eq_of_lt hdbl
  have hmods : (v.size_ + 1) % SIZE_MOD = v.size_ + 1 := Nat.mod_eq_of_lt (by omega)
  obtain ⟨r1, hr1, _, hl1, hj1⟩ := std_copy_ok v.items_ index 0
    (ArrayPtr junk (v.capacity_ * 2)) 0 (by omega)
    (by rw [ArrayPtr_slots, List.length_replicate]; omega)
  rw [ArrayPtr_slots, List.length_replicate] at hl1
  obtain ⟨r2, hr2, _, hs2⟩ := store_ok r1 index value (by omega)
  have hl2 : r2.slots.length = v.capacity_ * 2 := by rw [hs2, List.length_set, hl1]
  obtain ⟨r3, hr3, _, hl3, hj3⟩ := std_copy_ok v.items_ (v.size_ - index) index r2 (index + 1)
    (by omega) (by omega)
  refine ⟨{ items_ := r3, size_ := v.size_ + 1, capacity_ := v.capacity_ * 2 },
    ?_, rfl, rfl, ?_, ?_⟩
  · simp only [SimpleVector.Insert, if_pos hidx, if_neg hnot, hmodc, hmods, hr1, hr2, hr3,
      Res.ok_bind]
  · show r3.slots.length = _
    rw [hl3, hl2]
  · apply List.ext_getElem?
    intro j
    simp only [SimpleVector.elems, List.getElem?_take, List.getElem?_append, List.length_take,
      List.getElem?_cons, List.getElem?_drop]
    have hmin : min index (min v.size_ v.items_.slots.length) = index := by omega
    rw [hmin, hj3 j, hs2]
    by_cases h1 : j < index
    · have h2 : ¬ (index + 1 ≤ j ∧ j < index + 1 + (v.size_ - index)) := by omega
      have h3 : index ≠ j := by omega
      have h4 : 0 ≤ j ∧ j < 0 + index := by omega
      have h5 : j - 0 + 0 = j := by omega
      have h6 : j < v.size_ + 1 := by omega
      have h7 : j < v.size_ := by omega
      rw [if_neg h2, List.getElem?_set_ne h3, hj1 j, if_pos h4, h5, if_pos h6, if_pos h1,
        if_pos h1, if_pos h7]
    · by_cases h2 : j = index
      · subst h2
        have h3 : ¬ (j + 1 ≤ j ∧ j < j + 1 + (v.size_ - j)) := by omega
        have h4 : j < r1.slots.length := by omega
        have h6 : j < v.size_ + 1 := by omega
        have h7 : j - j = 0 := by omega
        rw [if_neg h3, List.getElem?_set_self h4, if_pos h6, if_neg h1, h7, if_pos rfl]
      · by_cases h3 : j < v.size_ + 1
        · have h4 : index + 1 ≤ j ∧ j < index + 1 + (v.size_ - index) := by omega
          have h5 : j - (index + 1) + index = j - 1 := by omega
          have h6 : ¬ (j - index = 0) := by omega
          have h7 : index + (j - index - 1) = j - 1 := by omega
          have h8 : j - 1 < v.size_ := by omega
          rw [if_pos h4, h5, if_pos h3, if_neg h1, if_neg h6, h7, if_pos h8]
        · have h4 : ¬ (index + 1 ≤ j ∧ j < index + 1 + (v.size_ - index)) := by omega
          have h6 : ¬ (j - index = 0) := by omega
          have h7 : ¬ (index + (j - index - 1) < v.size_) := by omega
          rw [if_neg h4, if_neg h3, if_neg h1, if_neg h6, if_neg h7]

/-- The fresh array of `new Type[n]` has `n` slots. -/
theorem new_array_slots (junk : T) (n : Nat) :
    (new_array junk n).slots = List.replicate n junk := rfl

/-- What the sized constructor builds: `size` slots that all hold `value`, and no
allocation for `size = 0`. -/
theorem ctor_size_value_run (junk : T) (n : Nat) (value : T) :
    ∃ r, SimpleVector.ctor_size_value junk n value =
        .ok { items_ := r, size_ := n, capacity_ := n } ∧
      r.slots = List.replicate n value ∧ (n = 0 → r = none) := by
  by_cases h0 : n = 0
  · subst h0
    exact ⟨none, rfl, rfl, fun _ => rfl⟩
  · obtain ⟨r, hr, _, hl, hj⟩ := std_fill_ok value n (new_array junk n) 0
      (by rw [new_array_slots, List.length_replicate]; omega)
    rw [new_array_slots, List.length_replicate] at hl
    refine ⟨r, ?_, ?_, fun h => absurd h h0⟩
    · simp only [SimpleVector.ctor_size_value, if_neg h0, hr, Res.ok_bind]
    · apply List.ext_getElem?
      intro j
      rw [hj j, List.getElem?_replicate]
      by_cases h1 : j < n
      · have h2 : 0 ≤ j ∧ j < 0 + n := by omega
        rw [if_pos h2, if_pos h1]
      · have h2 : ¬ (0 ≤ j ∧ j < 0 + n) := by omega
        rw [if_neg h2, if_neg h1, new_array_slots, List.getElem?_replicate, if_neg h1]

/-- What the copy constructor builds from a vector whose valid elements lie inside its
allocation: the size and the capacity value of the source, and a buffer whose slots are
exactly the valid elements of the source. -/
theorem ctor_copy_run [Inhabited T] (junk : T) (other : SimpleVector T)
    (hbuf : other.size_ ≤ other.items_.slots.length) :
    ∃ r, SimpleVector.ctor_copy junk other =
        .ok { items_ := r, size_ := other.size_, capacity_ := other.capacity_ } ∧
      r.slots = other.elems ∧ (other.size_ = 0 → r = none) := by
  obtain ⟨r0, hr0, hs0, hn0⟩ := ctor_size_value_run junk other.size_ (default : T)
  have hl0 : r0.slots.length = other.size_ := by rw [hs0, List.length_replicate]
  obtain ⟨r, hr, hsome, hl, hj⟩ := std_copy_ok other.items_ other.size_ 0 r0 0 (by omega)
    (by omega)
  refine ⟨r, ?_, ?_, ?_⟩
  · simp only [SimpleVector.ctor_copy, SimpleVector.GetSize, hr0, hr, Res.ok_bind,
      SimpleVector.swap]
  · apply List.ext_getElem?
    intro j
    simp only [SimpleVector.elems, List.getElem?_take]
    rw [hj j]
    by_cases h1 : j < other.size_
    · have h2 : 0 ≤ j ∧ j < 0 + other.size_ := by omega
      have h3 : j - 0 + 0 = j := by omega
      rw [if_pos h2, if_pos h1, h3]
    · have h2 : ¬ (0 ≤ j ∧ j < 0 + other.size_) := by omega
      rw [if_neg h2, if_neg h1]
      exact List.getElem?_eq_none (by omega)
  · intro h
    have h1 := hn0 h
    subst h1
    cases r with
    | none => rfl
    | some b => simp at hsome

/-- Whatever vector `Insert` returns, its capacity is the old one (room-available branch)
or the doubled one (reallocating branch). -/
theorem Insert_capacity_cases (junk : T) (v : SimpleVector T) (i : Nat) (x : T)
    (w : SimpleVector T) (k : Nat) (h : SimpleVector.Insert junk v i x = .ok (w, k)) :
    w.capacity_ = v.capacity_ ∨ w.capacity_ = v.capacity_ * 2 % SIZE_MOD := by
  unfold SimpleVector.Insert at h
  split at h
  · split at h
    · cases h1 : std_copy_backward v.items_ i (v.size_ - i) v.size_ with
      | fail f => rw [h1, Res.fail_bind] at h; cases h
      | ok p1 =>
        rw [h1, Res.ok_bind] at h
        cases h2 : store p1 i x with
        | fail f => rw [h2, Res.fail_bind] at h; cases h
        | ok p2 =>
          rw [h2, Res.ok_bind] at h
          cases h
          exact Or.inl rfl
    · cases h1 : std_copy v.items_ 0 i (ArrayPtr junk (v.capacity_ * 2 % SIZE_MOD)) 0 with
      | fail f => simp only [h1, Res.fail_bind] at h; cases h
      | ok p1 =>
        simp only [h1, Res.ok_bind] at h
        cases h2 : store p1 i x with
        | fail f => rw [h2, Res.fail_bind] at h; cases h
        | ok p2 =>
          rw [h2, Res.ok_bind] at h
          cases h3 : std_copy v.items_ i (v.size_ - i) p2 (i + 1) with
          | fail f => rw [h3, Res.fail_bind] at h; cases h
          | ok p3 =>
            rw [h3, Res.ok_bind] at h
            cases h
            exact Or.inr rfl
  · cases h

/-- On a vector of capacity at least one that owns `capacity_` slots, `Insert` returns in
both branches, the returned offset is `index`, the slot at that offset of the new buffer
holds `value`, and the capacity is the old one or twice the old one. -/
theorem Insert_position_holds_value (junk : T) (v : SimpleVector T) (index : Nat) (value : T)
    (hpos : 0 < v.capacity_) (hsz : v.size_ ≤ v.capacity_)
    (hbuf : v.items_.slots.length = v.capacity_) (hdbl : v.capacity_ * 2 < SIZE_MOD)
    (hidx : index ≤ v.size_) :
    ∃ w, SimpleVector.Insert junk v index value = .ok (w, index) ∧
      w.items_.slots[index]? = some value ∧ w.size_ = v.size_ + 1 ∧
      w.items_.slots.length = w.capacity_ ∧
      (v.size_ < v.capacity_ → w.capacity_ = v.capacity_) ∧
      (v.size_ = v.capacity_ → w.capacity_ = v.capacity_ * 2) := by
  by_cases hroom : v.size_ < v.capacity_
  · obtain ⟨r, hr, hrs⟩ := Insert_room_run junk v index value hroom hbuf hidx (by omega)
    refine ⟨_, hr, ?_, rfl, ?_, fun _ => rfl, fun h => by omega⟩
    · show r.slots[index]? = some value
      rw [hrs]
      exact List.getElem?_set_self (by omega)
    · show r.slots.length = v.capacity_
      rw [hrs, List.length_set, hbuf]
  · have hfull : v.size_ = v.capacity_ := by omega
    obtain ⟨w, hw, hws, hwc, hwl, hwe⟩ := Insert_grow_run junk v index value hfull (by omega)
      hpos hdbl hidx
    refine ⟨w, hw, ?_, hws, by rw [hwl, hwc], fun h => by omega, fun _ => hwc⟩
    have h1 : w.elems[index]? = some value := by
      rw [hwe]
      have hlen : (List.take index v.elems).length = index := by
        simp only [SimpleVector.elems, List.length_take]
        omega
      rw [List.getElem?_append_right (by omega), hlen, Nat.sub_self]
      exact List.getElem?_cons_zero
    have h2 : index < w.size_ := by omega
    simpa only [SimpleVector.elems, List.getElem?_take, if_pos h2] using h1

/-- The call `Erase(begin() + index)` returns for an index below the size when the valid
elements lie inside the allocation; the capacity member is not assigned. -/
theorem Erase_run (v : SimpleVector T) (index : Nat)
    (hbuf : v.size_ ≤ v.items_.slots.length) (hidx : index < v.size_) :
    ∃ r, SimpleVector.Erase v index =
      .ok ({ items_ := r, size_ := v.size_ - 1, capacity_ := v.capacity_ }, index) := by
  obtain ⟨r, hr, _⟩ :=
    std_copy_within_ok (v.size_ - (index + 1)) v.items_ (index + 1) index (by omega) (by omega)
  exact ⟨r, by simp only [SimpleVector.Erase, if_pos hidx, hr, Res.ok_bind]⟩

/-- The call `Reserve(c)` returns when the valid elements lie inside the allocation and
`size_ ≤ capacity_`; the new capacity is the larger of the old capacity and `c`. -/
theorem Reserve_run (junk : T) (v : SimpleVector T) (c : Nat)
    (hbuf : v.size_ ≤ v.items_.slots.length) (hsz : v.size_ ≤ v.capacity_) :
    ∃ w, SimpleVector.Reserve junk v c = .ok w ∧ w.capacity_ = max v.capacity_ c := by
  by_cases h1 : c > v.capacity_
  · by_cases h0 : v.size_ ≠ 0
    · obtain ⟨r, hr, _⟩ := std_copy_ok v.items_ v.size_ 0 (new_array junk c) 0 (by omega)
        (by rw [new_array_slots, List.length_replicate]; omega)
      refine ⟨{ items_ := r, size_ := v.size_, capacity_ := c }, ?_, ?_⟩
      · simp only [SimpleVector.Reserve, if_pos h1, if_pos h0, hr, Res.ok_bind]
      · show c = max v.capacity_ c
        omega
    · refine ⟨{ items_ := new_array junk c, size_ := v.size_, capacity_ := c }, ?_, ?_⟩
      · simp only [SimpleVector.Reserve, if_pos h1, if_neg h0, Res.ok_bind]
      · show c = max v.capacity_ c
        omega
  · refine ⟨v, by simp only [SimpleVector.Reserve, if_neg h1], ?_⟩
    omega

/-- A read of a slot that exists returns it. -/
theorem load_of_getElem? (p : Ptr T) (i : Nat) (x : T) (h : p.slots[i]? = some x) :
    load p i = .ok x := by
  simp only [load, h]

/-- The valid elements of a vector whose size does not exceed its allocation are `size_`
many. -/
theorem elems_length (v : SimpleVector T) (hbuf : v.size_ ≤ v.items_.slots.length) :
    v.elems.length = v.size_ := by
  simp only [SimpleVector.elems, List.length_take]
  omega

/-- The call `std::lexicographical_compare` over two ranges that lie inside their
allocations computes the lexicographic comparison of the two ranges. -/
theorem std_lexicographical_compare_ok [LT T] [∀ x y : T, Decidable (x < y)] (p q : Ptr T) :
    ∀ (xs ys : List T) (i j : Nat),
    (∀ k, k < xs.length → p.slots[i + k]? = xs[k]?) →
    (∀ k, k < ys.length → q.slots[j + k]? = ys[k]?) →
    std_lexicographical_compare p i xs.length q j ys.length =
      .ok (lexicographical_less xs ys) := by
  intro xs
  induction xs with
  | nil =>
    intro ys i j _ _
    cases ys with
    | nil => rfl
    | cons y ys => rfl
  | cons x xs ih =>
    intro ys i j hp hq
    cases ys with
    | nil => rfl
    | cons y ys =>
      have hx : load p i = .ok x := load_of_getElem? p i x (by simpa using hp 0 (by simp))
      have hy : load q j = .ok y := load_of_getElem? q j y (by simpa using hq 0 (by simp))
      have hrec := ih ys (i + 1) (j + 1)
        (fun k hk => by
          have h := hp (k + 1) (by simp; omega)
          rw [List.getElem?_cons_succ] at h
          have e : i + 1 + k = i + (k + 1) := by omega
          rw [e]
          exact h)
        (fun k hk => by
          have h := hq (k + 1) (by simp; omega)
          rw [List.getElem?_cons_succ] at h
          have e : j + 1 + k = j + (k + 1) := by omega
          rw [e]
          exact h)
      simp only [List.length_cons, std_lexicographical_compare, hx, hy, Res.ok_bind, hrec,
        lexicographical_less]
      by_cases h1 : x < y
      · simp only [if_pos h1]
      · by_cases h2 : y < x
        · simp only [if_neg h1, if_pos h2]
        · simp only [if_neg h1, if_neg h2]

/-- The comparison `lexicographical_less` decides the lexicographic order `List.lt`. -/
theorem lexicographical_less_iff [LT T] [∀ x y : T, Decidable (x < y)] :
    ∀ (xs ys : List T), lexicographical_less xs ys = true ↔ List.lt xs ys := by
  intro xs
  induction xs with
  | nil =>
    intro ys
    cases ys with
    | nil =>
      simp only [lexicographical_less]
      constructor
      · intro h
        cases h
      · intro h
        cases h
    | cons y ys =>
      simp only [lexicographical_less]
      exact ⟨fun _ => List.lt.nil y ys, fun _ => trivial⟩
  | cons x xs ih =>
    intro ys
    cases ys with
    | nil =>
      simp only [lexicographical_less]
      constructor
      · intro h
        cases h
      · intro h
        cases h
    | cons y ys =>
      simp only [lexicographical_less]
      by_cases h1 : x < y
      · simp only [if_pos h1]
        exact ⟨fun _ => List.lt.head xs ys h1, fun _ => trivial⟩
      · by_cases h2 : y < x
        · simp only [if_neg h1, if_pos h2]
          constructor
          · intro h
            cases h
          · intro h
            cases h with
            | head _ _ h3 => exact absurd h3 h1
            | tail _ h4 _ => exact absurd h2 h4
        · simp only [if_neg h1, if_neg h2, ih ys]
          constructor
          · intro h
            exact List.lt.tail h1 h2 h
          · intro h
            cases h with
            | head _ _ h3 => exact absurd h3 h1
            | tail _ _ h5 => exact h5

/-- The value of `a < b` for two vectors whose valid elements lie inside their
allocations: the lexicographic comparison of the two sequences of valid elements. -/
theorem operator_lt_run [Inhabited T] [LT T] [∀ x y : T, Decidable (x < y)] (junk : T)
    (a b : SimpleVector T)
    (ha : a.size_ ≤ a.items_.slots.length) (hb : b.size_ ≤ b.items_.slots.length) :
    operator_lt junk a b = .ok (lexicographical_less a.elems b.elems) := by
  obtain ⟨r1, h1, hs1, _⟩ := ctor_copy_run junk a ha
  obtain ⟨r2, h2, hs2, _⟩ := ctor_copy_run junk b hb
  have hl1 := elems_length a ha
  have hl2 := elems_length b hb
  simp only [operator_lt, h1, h2, Res.ok_bind]
  have h3 := std_lexicographical_compare_ok r1 r2 a.elems b.elems 0 0
    (fun k _ => by rw [hs1, Nat.zero_add]) (fun k _ => by rw [hs2, Nat.zero_add])
  rw [hl1, hl2] at h3
  exact h3

/-- The value of `a > b`: the parameters are copies of `a` and `b`, and the comparison
`right < left` on them is the lexicographic comparison of the elements of `b` with those
of `a`. -/
theorem operator_gt_run [Inhabited T] [LT T] [∀ x y : T, Decidable (x < y)] (junk : T)
    (a b : SimpleVector T)
    (ha : a.size_ ≤ a.items_.slots.length) (hb : b.size_ ≤ b.items_.slots.length) :
    operator_gt junk a b = .ok (lexicographical_less b.elems a.elems) := by
  obtain ⟨r1, h1, hs1, _⟩ := ctor_copy_run junk a ha
  obtain ⟨r2, h2, hs2, _⟩ := ctor_copy_run junk b hb
  have hl1 := elems_length a ha
  have hl2 := elems_length b hb
  simp only [operator_gt, h1, h2, Res.ok_bind]
  have e1 : SimpleVector.elems { items_ := r1, size_ := a.size_, capacity_ := a.capacity_ } =
      a.elems := by
    show r1.slots.take a.size_ = a.elems
    rw [hs1]
    exact List.take_of_length_le (by omega)
  have e2 : SimpleVector.elems { items_ := r2, size_ := b.size_, capacity_ := b.capacity_ } =
      b.elems := by
    show r2.slots.take b.size_ = b.elems
    rw [hs2]
    exact List.take_of_length_le (by omega)
  have h3 := operator_lt_run junk
    { items_ := r2, size_ := b.size_, capacity_ := b.capacity_ }
    { items_ := r1, size_ := a.size_, capacity_ := a.capacity_ }
    (by show b.size_ ≤ r2.slots.length; rw [hs2]; omega)
    (by show a.size_ ≤ r1.slots.length; rw [hs1]; omega)
  rw [e1, e2] at h3
  exact h3

end Lemmas

section Claims

open SimpleVector

variable {T : Type}

/-- C1 (evaluation): the vector `{1, 2, 3}` after `Reserve(4)` has size 3 and capacity 4;
`Insert(begin() + 1, 99)` on it takes the room-available branch and leaves the valid
elements `[1, 99, 3, stale]` (here the stale fourth slot holds 7), not `[1, 99, 2, 3]`:
the element at the index is overwritten and nothing is shifted. -/
theorem Insert_with_room_overwrites :
    ctor_init_list (7 : Nat) [1, 2, 3] = .ok ⟨some [1, 2, 3], 3, 3⟩ ∧
    Reserve (7 : Nat) ⟨some [1, 2, 3], 3, 3⟩ 4 = .ok ⟨some [1, 2, 3, 7], 3, 4⟩ ∧
    Insert (7 : Nat) ⟨some [1, 2, 3, 7], 3, 4⟩ 1 99 = .ok (⟨some [1, 99, 3, 7], 4, 4⟩, 1) ∧
    elems (⟨some [1, 99, 3, 7], 4, 4⟩ : SimpleVector Nat) = [1, 99, 3, 7] := by
  decide

/-- C2 (evaluation): on the default-constructed vector (size 0, capacity 0, no buffer)
`Insert(begin(), value)` takes the reallocating branch with `new_capacity = 0 * 2 = 0` and
writes `value` through the first-slot pointer of a buffer of zero slots: no vector of
capacity 1 results. -/
theorem Insert_at_capacity_zero (junk value : T) :
    Insert junk (ctor_default : SimpleVector T) 0 value = .fail .undefined := by
  rfl

/-- C3 (evaluation): the first `PushBack` on a default-constructed vector already fails to
produce a vector, for every value pushed. -/
theorem PushBack_on_default_constructed (junk value : T) :
    PushBack junk (ctor_default : SimpleVector T) value = .fail .undefined := by
  rfl

/-- C4: for a vector whose valid elements lie inside its allocation and an index below the
size, `Erase(begin() + index)` returns the iterator at offset `index` and leaves the old
elements before `index` followed by the old elements after `index`, in order; the size
drops by one and the capacity is unchanged. -/
theorem Erase_removes_exactly_one (v : SimpleVector T) (index : Nat)
    (hbuf : v.size_ ≤ v.items_.slots.length) (hidx : index < v.size_) :
    ∃ w, v.Erase index = .ok (w, index) ∧
      w.elems = v.elems.take index ++ v.elems.drop (index + 1) ∧
      w.size_ + 1 = v.size_ ∧ w.capacity_ = v.capacity_ := by
  obtain ⟨r, hr, _, hrl, hrj⟩ :=
    std_copy_within_ok (v.size_ - (index + 1)) v.items_ (index + 1) index (by omega) (by omega)
  refine ⟨{ items_ := r, size_ := v.size_ - 1, capacity_ := v.capacity_ }, ?_, ?_, ?_, rfl⟩
  · simp [Erase, hidx, hr]
  · apply List.ext_getElem?
    intro j
    simp only [elems, List.getElem?_take, List.getElem?_append, List.getElem?_drop,
      List.length_take, hrj]
    have hmin : min index (min v.size_ v.items_.slots.length) = index := by omega
    rw [hmin]
    by_cases h1 : j < index
    · have h2 : j < v.size_ - 1 := by omega
      have h3 : ¬ (index ≤ j ∧ j < index + (v.size_ - (index + 1))) := by omega
      have h4 : j < v.size_ := by omega
      simp only [h1, h2, h3, h4, if_true, if_false]
    · by_cases h2 : j < v.size_ - 1
      · have h3 : index ≤ j ∧ j < index + (v.size_ - (index + 1)) := by omega
        have h4 : index + 1 + (j - index) < v.size_ := by omega
        have h5 : j - index + (index + 1) = index + 1 + (j - index) := by omega
        simp only [h1, h2, h3, h4, h5, if_true, if_false, and_self]
      · have h4 : ¬ (index + 1 + (j - index) < v.size_) := by omega
        simp only [h1, h2, h4, if_false]
  · show v.size_ - 1 + 1 = v.size_
    omega

theorem Erase_removes_exactly_one_witness :
    (3 ≤ (Ptr.slots (some [10, 20, 30, 40] : Ptr Nat)).length ∧ 1 < 3) ∧
    ∃ w, Erase (⟨some [10, 20, 30, 40], 3, 4⟩ : SimpleVector Nat) 1 = .ok (w, 1) ∧
      w.elems = (elems ⟨some [10, 20, 30, 40], 3, 4⟩).take 1 ++
        (elems ⟨some [10, 20, 30, 40], 3, 4⟩).drop (1 + 1) ∧
      w.size_ + 1 = 3 ∧ w.capacity_ = 4 :=
  ⟨by decide, Erase_removes_exactly_one ⟨some [10, 20, 30, 40], 3, 4⟩ 1 (by decide) (by decide)⟩

/-- C5: `At(i)` throws `std::out_of_range` exactly when `i >= size_`; for `i < size_` (on a
vector whose valid elements lie inside its allocation) it returns the element at logical
position `i`; in every case the object after the call is the object before it. -/
theorem At_checked_access (v : SimpleVector T) (i : Nat)
    (hbuf : v.size_ ≤ v.items_.slots.length) :
    ((v.At i).1 = .fail .out_of_range ↔ v.size_ ≤ i) ∧
    (i < v.size_ → ∃ x, (v.At i).1 = .ok x ∧ v.elems[i]? = some x) ∧
    (v.At i).2 = v := by
  refine ⟨?_, ?_, ?_⟩
  · constructor
    · intro h
      by_contra hlt
      have hlt2 : ¬ (i ≥ v.size_) := hlt
      obtain ⟨x, hx, _⟩ := load_ok v.items_ i (by omega)
      simp only [At, if_neg hlt2, hx] at h
      cases h
    · intro h
      have h2 : i ≥ v.size_ := h
      simp only [At, if_pos h2]
  · intro h
    have h2 : ¬ (i ≥ v.size_) := by omega
    obtain ⟨x, hx, hxe⟩ := load_ok v.items_ i (by omega)
    refine ⟨x, ?_, ?_⟩
    · simp only [At, if_neg h2, hx]
    · simp only [elems, List.getElem?_take, if_pos h, hxe]
  · unfold At
    split <;> rfl

theorem At_checked_access_witness :
    3 ≤ (Ptr.slots (some [10, 20, 30, 40] : Ptr Nat)).length ∧
    (((At (⟨some [10, 20, 30, 40], 3, 4⟩ : SimpleVector Nat) 2).1 = .fail .out_of_range ↔ 3 ≤ 2) ∧
     (2 < 3 → ∃ x, (At (⟨some [10, 20, 30, 40], 3, 4⟩ : SimpleVector Nat) 2).1 = .ok x ∧
        (elems ⟨some [10, 20, 30, 40], 3, 4⟩)[2]? = some x) ∧
     (At (⟨some [10, 20, 30, 40], 3, 4⟩ : SimpleVector Nat) 2).2 = ⟨some [10, 20, 30, 40], 3, 4⟩) :=
  ⟨by decide, At_checked_access ⟨some [10, 20, 30, 40], 3, 4⟩ 2 (by decide)⟩

/-- C6: on a vector that owns `capacity_` slots and has `size_ ≤ capacity_`, `Resize(n)`
(for a `size_t` value `n`) returns a vector of size `n` whose valid elements are the first
`n` old elements followed by `n - size_` copies of `Type{}`, whatever the slots beyond the
old size held before. -/
theorem Resize_contents [Inhabited T] (junk : T) (v : SimpleVector T) (n : Nat)
    (hsz : v.size_ ≤ v.capacity_) (hbuf : v.items_.slots.length = v.capacity_)
    (hn : n < SIZE_MOD) :
    ∃ w, Resize junk v n = .ok w ∧ w.size_ = n ∧
      w.elems = v.elems.take n ++ List.replicate (n - v.size_) default := by
  obtain ⟨w, hw, hsize, hcap, hlen, hj⟩ := Resize_run junk v n hsz hbuf hn
  refine ⟨w, hw, hsize, ?_⟩
  have hcapn : n ≤ w.capacity_ := by
    rw [hcap]
    split <;> omega
  apply List.ext_getElem?
  intro j
  simp only [elems, List.getElem?_take, List.getElem?_append, List.length_take,
    List.getElem?_replicate, hsize]
  have hmin : min n (min v.size_ v.items_.slots.length) = min n v.size_ := by omega
  rw [hmin]
  by_cases h1 : j < n
  · rw [if_pos h1, hj j h1]
    by_cases h2 : j < v.size_
    · have h3 : j < min n v.size_ := by omega
      rw [if_pos h2, if_pos h3, if_pos h1, if_pos h2]
    · have h3 : ¬ (j < min n v.size_) := by omega
      have h4 : j - min n v.size_ < n - v.size_ := by omega
      rw [if_neg h2, if_neg h3, if_pos h4]
  · have h3 : ¬ (j < min n v.size_) := by omega
    have h4 : ¬ (j - min n v.size_ < n - v.size_) := by omega
    rw [if_neg h1, if_neg h3, if_neg h4]

theorem Resize_contents_witness :
    (1 ≤ 4 ∧ (Ptr.slots (some [10, 20, 30, 40] : Ptr Nat)).length = 4 ∧ 3 < SIZE_MOD) ∧
    ∃ w, Resize (7 : Nat) ⟨some [10, 20, 30, 40], 1, 4⟩ 3 = .ok w ∧ w.size_ = 3 ∧
      w.elems = (elems ⟨some [10, 20, 30, 40], 1, 4⟩).take 3 ++ List.replicate (3 - 1) default :=
  ⟨by decide, Resize_contents 7 ⟨some [10, 20, 30, 40], 1, 4⟩ 3 (by decide) (by decide)
    (by decide)⟩

/-- C7: on a vector that owns `capacity_` slots and has `size_ ≤ capacity_`, `Resize(n)`
returns a vector whose capacity is `max(n, capacity_ * 2)` when `n` exceeds the old
capacity (the product being a `size_t` value), and the old capacity otherwise. -/
theorem Resize_capacity [Inhabited T] (junk : T) (v : SimpleVector T) (n : Nat)
    (hsz : v.size_ ≤ v.capacity_) (hbuf : v.items_.slots.length = v.capacity_)
    (hn : n < SIZE_MOD) :
    ∃ w, Resize junk v n = .ok w ∧
      (v.capacity_ < n → v.capacity_ * 2 < SIZE_MOD → w.capacity_ = max n (v.capacity_ * 2)) ∧
      (n ≤ v.capacity_ → w.capacity_ = v.capacity_) := by
  obtain ⟨w, hw, _, hcap, _, _⟩ := Resize_run junk v n hsz hbuf hn
  refine ⟨w, hw, ?_, ?_⟩
  · intro h1 h2
    have h3 : n > v.capacity_ := h1
    rw [hcap, if_pos h3, Nat.mod_eq_of_lt h2]
  · intro h1
    have h3 : ¬ (n > v.capacity_) := by omega
    rw [hcap, if_neg h3]

theorem Resize_capacity_witness :
    (2 ≤ 3 ∧ (Ptr.slots (some [10, 20, 30] : Ptr Nat)).length = 3 ∧ 4 < SIZE_MOD) ∧
    ∃ w, Resize (7 : Nat) ⟨some [10, 20, 30], 2, 3⟩ 4 = .ok w ∧
      (3 < 4 → 3 * 2 < SIZE_MOD → w.capacity_ = max 4 (3 * 2)) ∧
      (4 ≤ 3 → w.capacity_ = 3) :=
  ⟨by decide, Resize_capacity 7 ⟨some [10, 20, 30], 2, 3⟩ 4 (by decide) (by decide)
    (by decide)⟩

/-- C8: on a vector whose valid elements lie inside its allocation and with
`size_ ≤ capacity_`, `Reserve(c)` returns a vector of capacity `max(capacity_, c)` with the
same size and the same valid elements in the same order; for `c ≤ capacity_` the whole
object is unchanged. -/
theorem Reserve_keeps_elements (junk : T) (v : SimpleVector T) (c : Nat)
    (hbuf : v.size_ ≤ v.items_.slots.length) (hsz : v.size_ ≤ v.capacity_) :
    ∃ w, Reserve junk v c = .ok w ∧ w.capacity_ = max v.capacity_ c ∧
      w.size_ = v.size_ ∧ w.elems = v.elems ∧ (c ≤ v.capacity_ → w = v) := by
  by_cases h1 : c > v.capacity_
  · have hnew : (new_array junk c).slots.length = c := by
      show (List.replicate c junk).length = c
      simp
    have hcopy : ∃ r, (if v.size_ ≠ 0 then std_copy v.items_ 0 v.size_ (new_array junk c) 0
          else Res.ok (new_array junk c)) = Res.ok r ∧
        ∀ j, j < v.size_ → r.slots[j]? = v.items_.slots[j]? := by
      by_cases h0 : v.size_ ≠ 0
      · obtain ⟨r, hr, _, _, hj⟩ := std_copy_ok v.items_ v.size_ 0 (new_array junk c) 0
          (by omega) (by rw [hnew]; omega)
        refine ⟨r, by rw [if_pos h0, hr], ?_⟩
        intro j hjs
        have h4 : 0 ≤ j ∧ j < 0 + v.size_ := by omega
        have h5 : j - 0 + 0 = j := by omega
        rw [hj j, if_pos h4, h5]
      · refine ⟨new_array junk c, by rw [if_neg h0], ?_⟩
        intro j hjs
        omega
    obtain ⟨r, hr, hj⟩ := hcopy
    refine ⟨{ items_ := r, size_ := v.size_, capacity_ := c }, ?_, ?_, rfl, ?_, ?_⟩
    · by_cases h0 : v.size_ ≠ 0
      · rw [if_pos h0] at hr
        simp only [Reserve, if_pos h1, if_pos h0, hr, Res.ok_bind]
      · rw [if_neg h0] at hr
        cases hr
        simp only [Reserve, if_pos h1, if_neg h0, Res.ok_bind]
    · show c = max v.capacity_ c
      omega
    · apply List.ext_getElem?
      intro j
      simp only [elems, List.getElem?_take]
      by_cases h2 : j < v.size_
      · rw [if_pos h2, if_pos h2, hj j h2]
      · rw [if_neg h2, if_neg h2]
    · intro h
      omega
  · refine ⟨v, ?_, ?_, rfl, rfl, fun _ => rfl⟩
    · simp only [Reserve, if_neg h1]
    · omega

theorem Reserve_keeps_elements_witness :
    (2 ≤ (Ptr.slots (some [10, 20, 30] : Ptr Nat)).length ∧ 2 ≤ 3) ∧
    ∃ w, Reserve (7 : Nat) ⟨some [10, 20, 30], 2, 3⟩ 5 = .ok w ∧ w.capacity_ = max 3 5 ∧
      w.size_ = 2 ∧ w.elems = elems ⟨some [10, 20, 30], 2, 3⟩ ∧
      (5 ≤ 3 → w = ⟨some [10, 20, 30], 2, 3⟩) :=
  ⟨by decide, Reserve_keeps_elements 7 ⟨some [10, 20, 30], 2, 3⟩ 5 (by decide) (by decide)⟩

/-- C9 (evaluation): the vector `{1, 2}` after `PopBack()` has size 1 and capacity 2; its
copy records capacity 2 but owns an allocation of one slot, so the next `PushBack` on the
copy writes outside the allocation. The copy of an empty vector of capacity 3 records
capacity 3 and owns no allocation at all. -/
theorem ctor_copy_allocates_size_slots :
    ctor_init_list (7 : Nat) [1, 2] = .ok ⟨some [1, 2], 2, 2⟩ ∧
    PopBack (⟨some [1, 2], 2, 2⟩ : SimpleVector Nat) = .ok ⟨some [1, 2], 1, 2⟩ ∧
    ctor_copy (7 : Nat) ⟨some [1, 2], 1, 2⟩ = .ok ⟨some [1], 1, 2⟩ ∧
    PushBack (7 : Nat) ⟨some [1], 1, 2⟩ 5 = .fail .undefined ∧
    ctor_reserve (7 : Nat) 3 = .ok ⟨some [7, 7, 7], 0, 3⟩ ∧
    ctor_copy (7 : Nat) ⟨some [7, 7, 7], 0, 3⟩ = .ok ⟨none, 0, 3⟩ := by
  decide

/-- C10 (evaluation): `SimpleVector(0, value)` is a vector of size 0 and capacity 0, and
`Insert(begin(), x)` on it does not produce a vector with `size_ ≤ capacity_`: the source
takes the reallocating branch with a new capacity of `0 * 2 = 0` and stores `x` outside the
zero-slot buffer (the statements after the store would set `size_ = 1`, `capacity_ = 0`). -/
theorem Insert_after_sized_zero (junk value x : T) :
    ctor_size_value junk 0 value = .ok ⟨none, 0, 0⟩ ∧
    Insert junk (⟨none, 0, 0⟩ : SimpleVector T) 0 x = .fail .undefined := by
  exact ⟨rfl, rfl⟩

/-- C11: the copy of a vector whose valid elements lie inside its allocation reports the
size and the capacity of the source, holds the same valid elements, and `At(i)` returns the
same element on the copy and on the source for every `i` below the size. The source is a
`const` reference that the constructor only reads. -/
theorem ctor_copy_observables [Inhabited T] (junk : T) (other : SimpleVector T)
    (hbuf : other.size_ ≤ other.items_.slots.length) :
    ∃ w, ctor_copy junk other = .ok w ∧ w.GetSize = other.GetSize ∧
      w.GetCapacity = other.GetCapacity ∧ w.elems = other.elems ∧
      ∀ i, i < other.size_ → ∃ x, (w.At i).1 = .ok x ∧ (other.At i).1 = .ok x := by
  obtain ⟨r, hr, hs, _⟩ := ctor_copy_run junk other hbuf
  have hlen : r.slots.length = other.size_ := by
    rw [hs]
    simp only [elems, List.length_take]
    omega
  refine ⟨_, hr, rfl, rfl, ?_, ?_⟩
  · show r.slots.take other.size_ = other.elems
    rw [hs]
    simp only [elems, List.take_take]
    congr 1
    omega
  · intro i hi
    have hge : ¬ (i ≥ other.size_) := by omega
    obtain ⟨x, hx, hxe⟩ := load_ok r i (by omega)
    obtain ⟨y, hy, hye⟩ := load_ok other.items_ i (by omega)
    have hxy : x = y := by
      rw [hs] at hxe
      simp only [elems, List.getElem?_take, if_pos hi] at hxe
      rw [hye] at hxe
      exact (Option.some.inj hxe).symm
    subst hxy
    refine ⟨x, ?_, ?_⟩
    · simp only [At, if_neg hge, hx]
    · simp only [At, if_neg hge, hy]

theorem ctor_copy_observables_witness :
    2 ≤ (Ptr.slots (some [10, 20, 30] : Ptr Nat)).length ∧
    ∃ w, ctor_copy (7 : Nat) ⟨some [10, 20, 30], 2, 3⟩ = .ok w ∧
      w.GetSize = GetSize (⟨some [10, 20, 30], 2, 3⟩ : SimpleVector Nat) ∧
      w.GetCapacity = GetCapacity (⟨some [10, 20, 30], 2, 3⟩ : SimpleVector Nat) ∧
      w.elems = elems ⟨some [10, 20, 30], 2, 3⟩ ∧
      ∀ i, i < 2 → ∃ x, (w.At i).1 = .ok x ∧
        (At (⟨some [10, 20, 30], 2, 3⟩ : SimpleVector Nat) i).1 = .ok x :=
  ⟨by decide, ctor_copy_observables 7 ⟨some [10, 20, 30], 2, 3⟩ (by decide)⟩

/-- C12: move construction gives the new object the buffer, the size, the capacity and so
the valid elements of the source, and leaves the source with size 0, capacity 0 and no
buffer. -/
theorem ctor_move_transfers (v : SimpleVector T) :
    (ctor_move v).1.items_ = v.items_ ∧ (ctor_move v).1.size_ = v.size_ ∧
    (ctor_move v).1.capacity_ = v.capacity_ ∧ (ctor_move v).1.elems = v.elems ∧
    (ctor_move v).2.size_ = 0 ∧ (ctor_move v).2.capacity_ = 0 ∧
    (ctor_move v).2.items_ = none := by
  exact ⟨rfl, rfl, rfl, rfl, rfl, rfl, rfl⟩

/-- C14: for two vectors whose valid elements lie inside their allocations, `a < b`
returns, and it is true exactly when the valid elements of `a` come before the valid
elements of `b` in the lexicographic order of lists (where a list is smaller than every
longer list that continues it); `a > b` has the outcome of `b < a`. -/
theorem operator_lt_lexicographic [Inhabited T] [LT T] [∀ x y : T, Decidable (x < y)]
    (junk : T) (a b : SimpleVector T)
    (ha : a.size_ ≤ a.items_.slots.length) (hb : b.size_ ≤ b.items_.slots.length) :
    ∃ r, operator_lt junk a b = .ok r ∧ (r = true ↔ List.lt a.elems b.elems) ∧
      operator_gt junk a b = operator_lt junk b a := by
  refine ⟨lexicographical_less a.elems b.elems, operator_lt_run junk a b ha hb,
    lexicographical_less_iff a.elems b.elems, ?_⟩
  rw [operator_gt_run junk a b ha hb, operator_lt_run junk b a hb ha]

theorem operator_lt_lexicographic_witness :
    (3 ≤ (Ptr.slots (some [1, 99, 2] : Ptr Nat)).length ∧
      3 ≤ (Ptr.slots (some [1, 99, 3, 55] : Ptr Nat)).length) ∧
    ∃ r, operator_lt (7 : Nat) ⟨some [1, 99, 2], 3, 3⟩ ⟨some [1, 99, 3, 55], 3, 4⟩ = .ok r ∧
      (r = true ↔ List.lt (elems (⟨some [1, 99, 2], 3, 3⟩ : SimpleVector Nat))
        (elems (⟨some [1, 99, 3, 55], 3, 4⟩ : SimpleVector Nat))) ∧
      operator_gt (7 : Nat) ⟨some [1, 99, 2], 3, 3⟩ ⟨some [1, 99, 3, 55], 3, 4⟩ =
        operator_lt (7 : Nat) ⟨some [1, 99, 3, 55], 3, 4⟩ ⟨some [1, 99, 2], 3, 3⟩ :=
  ⟨by decide, operator_lt_lexicographic 7 ⟨some [1, 99, 2], 3, 3⟩ ⟨some [1, 99, 3, 55], 3, 4⟩
    (by decide) (by decide)⟩

/-- C16 (evaluation): the vector `{1, 2}` is moved from, which leaves it with size 0,
capacity 0 and no buffer; `Insert(begin(), 9)` on it reallocates to a buffer of
`0 * 2 = 0` slots and stores 9 outside it, so no position holding 9 in the live buffer is
returned. -/
theorem Insert_into_moved_from :
    ctor_init_list (7 : Nat) [1, 2] = .ok ⟨some [1, 2], 2, 2⟩ ∧
    ctor_move (⟨some [1, 2], 2, 2⟩ : SimpleVector Nat) =
      (⟨some [1, 2], 2, 2⟩, ⟨none, 0, 0⟩) ∧
    Insert (7 : Nat) ⟨none, 0, 0⟩ 0 9 = .fail .undefined := by
  decide

/-- C17: on a vector that owns `capacity_` slots, with `size_ ≤ capacity_` and a capacity
whose double is a `size_t` value: `Clear` sets the size to 0 and keeps the capacity;
`Resize`, `PopBack`, `Erase` and `Reserve` return (within their preconditions) a vector
whose capacity is at least the old one; `Insert` and `PushBack` do so whenever the capacity
is at least one; and whatever vector `Insert` or `PushBack` returns has a capacity at least
the old one. -/
theorem capacity_never_shrinks [Inhabited T] (junk : T) (v : SimpleVector T)
    (hsz : v.size_ ≤ v.capacity_) (hbuf : v.items_.slots.length = v.capacity_)
    (hdbl : v.capacity_ * 2 < SIZE_MOD) :
    ((Clear v).size_ = 0 ∧ (Clear v).capacity_ = v.capacity_) ∧
    (∀ n, n < SIZE_MOD → ∃ w, Resize junk v n = .ok w ∧ v.capacity_ ≤ w.capacity_) ∧
    (v.size_ ≠ 0 → ∃ w, PopBack v = .ok w ∧ v.capacity_ ≤ w.capacity_) ∧
    (∀ i, i < v.size_ → ∃ w, Erase v i = .ok (w, i) ∧ v.capacity_ ≤ w.capacity_) ∧
    (∀ c, ∃ w, Reserve junk v c = .ok w ∧ v.capacity_ ≤ w.capacity_) ∧
    (∀ i x, i ≤ v.size_ → 0 < v.capacity_ →
      ∃ w, Insert junk v i x = .ok (w, i) ∧ v.capacity_ ≤ w.capacity_) ∧
    (∀ x, 0 < v.capacity_ → ∃ w, PushBack junk v x = .ok w ∧ v.capacity_ ≤ w.capacity_) ∧
    (∀ i x w k, Insert junk v i x = .ok (w, k) → v.capacity_ ≤ w.capacity_) ∧
    (∀ x w, PushBack junk v x = .ok w → v.capacity_ ≤ w.capacity_) := by
  have hins : ∀ i x w k, Insert junk v i x = .ok (w, k) → v.capacity_ ≤ w.capacity_ := by
    intro i x w k h
    rcases Insert_capacity_cases junk v i x w k h with h1 | h1
    · omega
    · rw [h1, Nat.mod_eq_of_lt hdbl]
      omega
  have hins2 : ∀ i x, i ≤ v.size_ → 0 < v.capacity_ →
      ∃ w, Insert junk v i x = .ok (w, i) ∧ v.capacity_ ≤ w.capacity_ := by
    intro i x hi hpos
    obtain ⟨w, hw, _⟩ := Insert_position_holds_value junk v i x hpos hsz hbuf hdbl hi
    exact ⟨w, hw, hins i x w i hw⟩
  refine ⟨⟨rfl, rfl⟩, ?_, ?_, ?_, ?_, hins2, ?_, hins, ?_⟩
  · intro n hn
    obtain ⟨w, hw, _, hcap, _, _⟩ := Resize_run junk v n hsz hbuf hn
    refine ⟨w, hw, ?_⟩
    rw [hcap]
    split <;> omega
  · intro h0
    exact ⟨{ items_ := v.items_, size_ := v.size_ - 1, capacity_ := v.capacity_ },
      by simp only [PopBack, if_neg h0], Nat.le_refl _⟩
  · intro i hi
    obtain ⟨r, hr⟩ := Erase_run v i (by omega) hi
    exact ⟨_, hr, Nat.le_refl _⟩
  · intro c
    obtain ⟨w, hw, hc⟩ := Reserve_run junk v c (by omega) hsz
    exact ⟨w, hw, by omega⟩
  · intro x hpos
    obtain ⟨w, hw, hc⟩ := hins2 v.size_ x (Nat.le_refl _) hpos
    exact ⟨w, by simp only [PushBack, hw, Res.ok_bind], hc⟩
  · intro x w h
    cases h1 : Insert junk v v.size_ x with
    | fail f => simp only [PushBack, h1, Res.fail_bind] at h; cases h
    | ok r =>
      simp only [PushBack, h1, Res.ok_bind] at h
      cases h
      exact hins v.size_ x r.1 r.2 h1

theorem capacity_never_shrinks_witness :
    (2 ≤ 3 ∧ (Ptr.slots (some [10, 20, 30] : Ptr Nat)).length = 3 ∧ 3 * 2 < SIZE_MOD) ∧
    (((Clear (⟨some [10, 20, 30], 2, 3⟩ : SimpleVector Nat)).size_ = 0 ∧
      (Clear (⟨some [10, 20, 30], 2, 3⟩ : SimpleVector Nat)).capacity_ = 3) ∧
    (∀ n, n < SIZE_MOD →
      ∃ w, Resize (7 : Nat) ⟨some [10, 20, 30], 2, 3⟩ n = .ok w ∧ 3 ≤ w.capacity_) ∧
    (2 ≠ 0 → ∃ w, PopBack (⟨some [10, 20, 30], 2, 3⟩ : SimpleVector Nat) = .ok w ∧
      3 ≤ w.capacity_) ∧
    (∀ i, i < 2 → ∃ w, Erase (⟨some [10, 20, 30], 2, 3⟩ : SimpleVector Nat) i = .ok (w, i) ∧
      3 ≤ w.capacity_) ∧
    (∀ c, ∃ w, Reserve (7 : Nat) ⟨some [10, 20, 30], 2, 3⟩ c = .ok w ∧ 3 ≤ w.capacity_) ∧
    (∀ i x, i ≤ 2 → 0 < 3 →
      ∃ w, Insert (7 : Nat) ⟨some [10, 20, 30], 2, 3⟩ i x = .ok (w, i) ∧ 3 ≤ w.capacity_) ∧
    (∀ x, 0 < 3 →
      ∃ w, PushBack (7 : Nat) ⟨some [10, 20, 30], 2, 3⟩ x = .ok w ∧ 3 ≤ w.capacity_) ∧
    (∀ i x w k, Insert (7 : Nat) ⟨some [10, 20, 30], 2, 3⟩ i x = .ok (w, k) →
      3 ≤ w.capacity_) ∧
    (∀ x w, PushBack (7 : Nat) ⟨some [10, 20, 30], 2, 3⟩ x = .ok w → 3 ≤ w.capacity_)) :=
  ⟨by decide, capacity_never_shrinks 7 ⟨some [10, 20, 30], 2, 3⟩ (by decide) (by decide)
    (by decide)⟩

/-- C18: for every `n` and `value`, `SimpleVector(n, value)` is a vector of size `n` and
capacity `n` that owns `n` slots, all of its `n` elements equal `value`, and for `n = 0` it
is the empty state without a buffer. -/
theorem ctor_size_value_fills (junk : T) (n : Nat) (value : T) :
    ∃ w, ctor_size_value junk n value = .ok w ∧ w.size_ = n ∧ w.capacity_ = n ∧
      w.items_.slots.length = n ∧ w.elems = List.replicate n value ∧
      (n = 0 → w = ctor_default) := by
  obtain ⟨r, hr, hs, hn⟩ := ctor_size_value_run junk n value
  refine ⟨_, hr, rfl, rfl, ?_, ?_, ?_⟩
  · show r.slots.length = n
    rw [hs, List.length_replicate]
  · show r.slots.take n = _
    rw [hs]
    exact List.take_of_length_le (by rw [List.length_replicate])
  · intro h0
    have h1 := hn h0
    subst h0
    subst h1
    rfl

/-- C19: for every list of values, the vector constructed from it has size and capacity
equal to the length of the list, owns that many slots, and its valid elements are the
values of the list in order. -/
theorem ctor_init_list_copies (junk : T) (init : List T) :
    ∃ w, ctor_init_list junk init = .ok w ∧ w.size_ = init.length ∧
      w.capacity_ = init.length ∧ w.items_.slots.length = init.length ∧ w.elems = init := by
  by_cases h0 : init.length = 0
  · have hnil : init = [] := List.length_eq_zero.mp h0
    subst hnil
    exact ⟨ctor_default, rfl, rfl, rfl, rfl, rfl⟩
  · obtain ⟨r, hr, _, hl, hj⟩ := std_copy_ok (some init) init.length 0
      (new_array junk init.length) 0 (by simp) (by rw [new_array_slots]; simp)
    rw [new_array_slots, List.length_replicate] at hl
    refine ⟨{ items_ := r, size_ := init.length, capacity_ := init.length }, ?_, rfl, rfl,
      hl, ?_⟩
    · simp only [ctor_init_list, if_neg h0, hr, Res.ok_bind]
    · show r.slots.take init.length = init
      rw [List.take_of_length_le (by omega)]
      apply List.ext_getElem?
      intro j
      rw [hj j]
      by_cases h1 : j < init.length
      · have h2 : 0 ≤ j ∧ j < 0 + init.length := by omega
        have h3 : j - 0 + 0 = j := by omega
        rw [if_pos h2, h3, Ptr.slots_some]
      · have h2 : ¬ (0 ≤ j ∧ j < 0 + init.length) := by omega
        rw [if_neg h2, new_array_slots, List.getElem?_replicate, if_neg h1]
        exact (List.getElem?_eq_none (by omega)).symm

/-- C20: on a vector of capacity at least one that owns `capacity_` slots, with
`size_ ≤ capacity_` (and a capacity whose double is a `size_t` value), `PushBack(value)`
returns a vector whose valid elements are the old ones, in order, followed by `value` at
position `size_`; the size grows by one; the capacity is unchanged when `size_ < capacity_`
and exactly doubled when `size_ = capacity_`. -/
theorem PushBack_on_allocated (junk : T) (v : SimpleVector T) (value : T)
    (hpos : 1 ≤ v.capacity_) (hbuf : v.items_.slots.length = v.capacity_)
    (hsz : v.size_ ≤ v.capacity_) (hdbl : v.capacity_ * 2 < SIZE_MOD) :
    ∃ w, PushBack junk v value = .ok w ∧ w.elems = v.elems ++ [value] ∧
      w.elems[v.size_]? = some value ∧ w.size_ = v.size_ + 1 ∧
      (v.size_ < v.capacity_ → w.capacity_ = v.capacity_) ∧
      (v.size_ = v.capacity_ → w.capacity_ = v.capacity_ * 2) := by
  have hlen : v.elems.length = v.size_ := by
    simp only [elems, List.length_take]
    omega
  have key : ∃ w, PushBack junk v value = .ok w ∧ w.elems = v.elems ++ [value] ∧
      w.size_ = v.size_ + 1 ∧
      (v.size_ < v.capacity_ → w.capacity_ = v.capacity_) ∧
      (v.size_ = v.capacity_ → w.capacity_ = v.capacity_ * 2) := by
    by_cases hroom : v.size_ < v.capacity_
    · obtain ⟨r, hr, hrs⟩ := Insert_room_run junk v v.size_ value hroom hbuf (Nat.le_refl _)
        (by omega)
      refine ⟨{ items_ := r, size_ := v.size_ + 1, capacity_ := v.capacity_ }, ?_, ?_, rfl,
        fun _ => rfl, fun h => by omega⟩
      · simp only [PushBack, hr, Res.ok_bind]
      · show r.slots.take (v.size_ + 1) = v.elems ++ [value]
        rw [hrs]
        apply List.ext_getElem?
        intro j
        simp only [elems, List.getElem?_take, List.getElem?_append, List.length_take]
        have hmin : min v.size_ v.items_.slots.length = v.size_ := by omega
        rw [hmin]
        by_cases h1 : j < v.size_
        · have h2 : j < v.size_ + 1 := by omega
          have h3 : v.size_ ≠ j := by omega
          rw [if_pos h2, if_pos h1, if_pos h1, List.getElem?_set_ne h3]
        · by_cases h2 : j = v.size_
          · subst h2
            have h3 : v.size_ < v.size_ + 1 := by omega
            rw [if_pos h3, if_neg h1, List.getElem?_set_self (by omega), Nat.sub_self]
            exact List.getElem?_cons_zero.symm
          · have h3 : ¬ (j < v.size_ + 1) := by omega
            rw [if_neg h3, if_neg h1]
            exact (List.getElem?_eq_none (by simp; omega)).symm
    · have hfull : v.size_ = v.capacity_ := by omega
      obtain ⟨w, hw, hws, hwc, _, hwe⟩ := Insert_grow_run junk v v.size_ value hfull
        (by omega) (by omega) hdbl (Nat.le_refl _)
      refine ⟨w, ?_, ?_, hws, fun h => by omega, fun _ => hwc⟩
      · simp only [PushBack, hw, Res.ok_bind]
      · rw [hwe, List.take_of_length_le (by omega), List.drop_of_length_le (by omega)]
  obtain ⟨w, hw, he, hs, hc1, hc2⟩ := key
  refine ⟨w, hw, he, ?_, hs, hc1, hc2⟩
  rw [he, List.getElem?_append_right (by omega), hlen, Nat.sub_self]
  exact List.getElem?_cons_zero

theorem PushBack_on_allocated_witness :
    (1 ≤ 3 ∧ (Ptr.slots (some [10, 20, 30] : Ptr Nat)).length = 3 ∧ 3 ≤ 3 ∧
      3 * 2 < SIZE_MOD) ∧
    ∃ w, PushBack (7 : Nat) ⟨some [10, 20, 30], 3, 3⟩ 40 = .ok w ∧
      w.elems = elems ⟨some [10, 20, 30], 3, 3⟩ ++ [40] ∧
      w.elems[3]? = some 40 ∧ w.size_ = 3 + 1 ∧
      (3 < 3 → w.capacity_ = 3) ∧ (3 = 3 → w.capacity_ = 3 * 2) :=
  ⟨by decide, PushBack_on_allocated 7 ⟨some [10, 20, 30], 3, 3⟩ 40 (by decide) (by decide)
    (by decide) (by decide)⟩

end Claims

end SV
